import Mathlib

/-!
Verification of the recall/retrieval orchestration of the mesh-os repository.

The repository ships the simple `props_os` client (src/props_os/core/client.py)
together with tests for the richer `mesh_os` client (src/tests/test_sdk.py).
The implementation of `mesh_os.core.client.MeshOS.recall` — the multi-stage
recall orchestrator with adaptive threshold relaxation and semantic expansion —
is not part of the source tree; only its tests are.  Following the design
specification, that orchestrator is modelled here from the spec.  The simple
`PropsOS.recall` client, which is present in the source tree, is translated
directly from src/props_os/core/client.py.

Scores and thresholds are modelled as exact rationals; the external
collaborators (embedding provider, similarity search backend, text-completion
provider) are modelled as oracles that either answer or fail, and every
network call the orchestrator makes is recorded in a trace, so that call-count
and call-argument properties can be stated and proved.
-/

attribute [local semireducible] Rat.add Rat.sub Rat.mul Rat.inv Rat.ofScientific

namespace MeshOS

/-- Modelled from the spec: an embedding vector returned by the embedding
provider (a fixed-length numeric vector; the orchestrator treats it opaquely). -/
abbrev Vec := List ℚ

/-- Modelled from the spec: the optional structured filter predicate, opaque to
the orchestrator and passed through unchanged to the backend. -/
abbrev FilterPred := String

/-- Modelled from the spec: a `ScoredRecord` — a retrieved memory candidate with
an opaque unique id, a similarity score, and an opaque payload. -/
structure ScoredRecord where
  id : String
  score : ℚ
  payload : String
deriving DecidableEq

/-- Modelled from the spec: the error taxonomy of the recall orchestration:
embedding-provider failure, search-backend failure, completion failure. -/
inductive RecallError where
  | embeddingError
  | backendError
  | completionError
deriving DecidableEq

/-- Modelled from the spec: the three external collaborators consumed by the
orchestrator, as oracles; `none` models a provider failure. -/
structure Env where
  embed : String → Option Vec
  search : Vec → ℚ → Nat → Option FilterPred → Option (List ScoredRecord)
  complete : String → Option String

/-- One network call issued by the orchestrator, recorded with its arguments. -/
inductive CallEvent where
  | embedCall (text : String)
  | searchCall (vec : Vec) (threshold : ℚ) (lim : Nat) (filt : Option FilterPred)
  | completeCall (prompt : String)
deriving DecidableEq

/-- Whether a recorded call is an embedding-provider call. -/
def CallEvent.isEmbedCall : CallEvent → Bool
  | .embedCall _ => true
  | _ => false

/-- Whether a recorded call is a completion-provider call. -/
def CallEvent.isCompleteCall : CallEvent → Bool
  | .completeCall _ => true
  | _ => false

/-- Modelled from the spec: the fixed threshold decrement step 0.05. -/
def stepSize : ℚ := 1 / 20

/-- Modelled from the spec: the threshold floor 0.3; the floor is exclusive,
0.3 itself is never tried during relaxation. -/
def floorThreshold : ℚ := 3 / 10

/-- Modelled from the spec: the number of relaxation steps available from an
initial threshold `t`: the number of positive integers `k` with
`t - k * stepSize > floorThreshold`. -/
def relaxSteps (t : ℚ) : ℕ := (⌈20 * t - 6⌉ - 1).toNat

/-- Modelled from the spec: the thresholds tried during adaptive relaxation
from initial threshold `t`: `t - 0.05, t - 0.10, …`, all strictly above the
floor 0.3. -/
def relaxedThresholds (t : ℚ) : List ℚ :=
  (List.range (relaxSteps t)).map (fun (k : ℕ) => t - ((k : ℚ) + 1) * stepSize)

/-- Modelled from the spec: insert a candidate into the accumulator.  The
accumulator is an ordered map keyed by record id (insertion order preserved
for stable tie-breaking): a new id is appended, a repeated id keeps its
position and retains the highest score seen. -/
def accInsert : List ScoredRecord → ScoredRecord → List ScoredRecord
  | [], r => [r]
  | a :: rest, r =>
    if a.id = r.id then
      (if a.score < r.score then { a with score := r.score } else a) :: rest
    else
      a :: accInsert rest r

/-- Modelled from the spec: add one search attempt's results to the
accumulator, in the order returned by the backend. -/
def accInsertAll (acc : List ScoredRecord) (rs : List ScoredRecord) : List ScoredRecord :=
  rs.foldl accInsert acc

/-- Modelled from the spec: the effective minimum result count: `min_results`,
except that when it is 0 any non-empty result set is accepted. -/
def effMin (minResults : ℕ) : ℕ := max minResults 1

/-- Modelled from the spec: the stage-2 relaxation loop over a list of relaxed
thresholds: before each attempt the loop stops if the accumulated unique
record count has reached the effective minimum; otherwise it issues a fresh
search at the next threshold with all other parameters unchanged, accumulating
new unique records.  A backend failure aborts immediately. -/
def relaxLoop (env : Env) (vec : Vec) (lim : Nat) (filt : Option FilterPred) (minR : ℕ) :
    List ℚ → List ScoredRecord → List CallEvent × Except RecallError (List ScoredRecord)
  | [], acc => ([], .ok acc)
  | th :: rest, acc =>
    if effMin minR ≤ acc.length then ([], .ok acc)
    else
      match env.search vec th lim filt with
      | none => ([.searchCall vec th lim filt], .error .backendError)
      | some rs =>
        let next := relaxLoop env vec lim filt minR rest (accInsertAll acc rs)
        (.searchCall vec th lim filt :: next.1, next.2)

/-- Modelled from the spec: the stage-1 base search at the given threshold
followed, when `adaptive` is on and the accumulated count is still below the
effective minimum, by the stage-2 adaptive relaxation. -/
def sweep (env : Env) (vec : Vec) (t : ℚ) (lim : Nat) (filt : Option FilterPred)
    (minR : ℕ) (adaptive : Bool) (acc : List ScoredRecord) :
    List CallEvent × Except RecallError (List ScoredRecord) :=
  match env.search vec t lim filt with
  | none => ([.searchCall vec t lim filt], .error .backendError)
  | some rs =>
    let acc1 := accInsertAll acc rs
    if adaptive = true ∧ acc1.length < effMin minR then
      let next := relaxLoop env vec lim filt minR (relaxedThresholds t) acc1
      (.searchCall vec t lim filt :: next.1, next.2)
    else
      ([.searchCall vec t lim filt], .ok acc1)

/-- Split a list of characters at newline characters. -/
def splitLinesAux : List Char → List (List Char)
  | [] => [[]]
  | c :: cs =>
    let rest := splitLinesAux cs
    if c = '\n' then [] :: rest
    else (c :: rest.headD []) :: rest.tail

/-- Modelled from the spec: parse the completion response into variation
strings by splitting on newlines and discarding empty lines. -/
def parseVariations (s : String) : List String :=
  ((splitLinesAux s.data).map (fun cs => String.mk cs)).filter (fun l => l ≠ "")

/-- Modelled from the spec: the prompt sent to the text-completion provider,
asking for newline-separated paraphrase variations of the query. -/
def expansionPrompt (queryText : String) : String :=
  "Generate paraphrased variations of the following query, one per line: " ++ queryText

/-- Modelled from the spec: the stage-3 semantic-expansion loop: for each
variation in the order returned, stop if the accumulated count has reached the
effective minimum; otherwise compute a fresh embedding for the variation and
repeat the full stage-1 + stage-2 sub-procedure at the original threshold,
accumulating unique records.  Provider failures abort immediately. -/
def expandLoop (env : Env) (t : ℚ) (lim : Nat) (filt : Option FilterPred) (minR : ℕ)
    (adaptive : Bool) : List String → List ScoredRecord →
    List CallEvent × Except RecallError (List ScoredRecord)
  | [], acc => ([], .ok acc)
  | v :: rest, acc =>
    if effMin minR ≤ acc.length then ([], .ok acc)
    else
      match env.embed v with
      | none => ([.embedCall v], .error .embeddingError)
      | some w =>
        let sw := sweep env w t lim filt minR adaptive acc
        match sw.2 with
        | .error e => (.embedCall v :: sw.1, .error e)
        | .ok acc2 =>
          let next := expandLoop env t lim filt minR adaptive rest acc2
          (.embedCall v :: sw.1 ++ next.1, next.2)

/-- Modelled from the spec: insert a record into a list already sorted by
descending score, placing it before the first element whose score is not
larger — so that among equal scores the earlier-seen record comes first. -/
def insertByScore (r : ScoredRecord) : List ScoredRecord → List ScoredRecord
  | [] => [r]
  | x :: xs => if x.score ≤ r.score then r :: x :: xs else x :: insertByScore r xs

/-- Modelled from the spec: stable sort of the accumulator by score descending,
ties broken by first-seen (insertion) order. -/
def sortByScore : List ScoredRecord → List ScoredRecord
  | [] => []
  | a :: rest => insertByScore a (sortByScore rest)

/-- Modelled from the spec: final ranking: sort the accumulated records by
score descending (stable) and return the top `limit` records. -/
def rankResults (lim : Nat) (acc : List ScoredRecord) : List ScoredRecord :=
  (sortByScore acc).take lim

/-- Modelled from the spec: the recall orchestration of
`mesh_os.core.client.MeshOS.recall`, whose implementation is absent from the
source tree (only its tests are present).  Stage 1: embed the query once and
issue the base search at the initial threshold.  Stage 2 (if `adaptive`):
relax the threshold in fixed steps down to the exclusive floor.  Stage 3 (if
`expansion` and still insufficient): one completion call for paraphrase
variations, then per-variation fresh embedding and stage-1 + stage-2 searches,
short-circuiting as soon as the effective minimum is reached.  Finally merge,
dedup by id keeping best scores, rank by score descending and truncate. -/
def «recall» (env : Env) (queryText : String) (filt : Option FilterPred) (lim : Nat)
    (t : ℚ) (minR : ℕ) (adaptive : Bool) (expansion : Bool) :
    List CallEvent × Except RecallError (List ScoredRecord) :=
  match env.embed queryText with
  | none => ([.embedCall queryText], .error .embeddingError)
  | some vec =>
    let sw := sweep env vec t lim filt minR adaptive []
    match sw.2 with
    | .error e => (.embedCall queryText :: sw.1, .error e)
    | .ok acc1 =>
      if expansion = true ∧ acc1.length < effMin minR then
        match env.complete (expansionPrompt queryText) with
        | none =>
          (.embedCall queryText :: sw.1 ++ [.completeCall (expansionPrompt queryText)],
            .error .completionError)
        | some s =>
          let ex := expandLoop env t lim filt minR adaptive (parseVariations s) acc1
          match ex.2 with
          | .error e =>
            (.embedCall queryText :: sw.1 ++ .completeCall (expansionPrompt queryText) :: ex.1,
              .error e)
          | .ok acc2 =>
            (.embedCall queryText :: sw.1 ++ .completeCall (expansionPrompt queryText) :: ex.1,
              .ok (rankResults lim acc2))
      else
        (.embedCall queryText :: sw.1, .ok (rankResults lim acc1))

/-- The final accumulator of a recall run, before ranking: the same stage
structure as `«recall»` (same `sweep` and `expandLoop` applications on the
same arguments), projected to the accumulated records instead of the ranked
output.  `recall_res_eq_map_rank` proves that the result of `«recall»` is
exactly `rankResults lim` mapped over this accumulator, so properties of the
run's merge/dedup accumulator can be stated through it. -/
def recallAcc (env : Env) (queryText : String) (filt : Option FilterPred) (lim : Nat)
    (t : ℚ) (minR : ℕ) (adaptive : Bool) (expansion : Bool) :
    Except RecallError (List ScoredRecord) :=
  match env.embed queryText with
  | none => .error .embeddingError
  | some vec =>
    match (sweep env vec t lim filt minR adaptive []).2 with
    | .error e => .error e
    | .ok acc1 =>
      if expansion = true ∧ acc1.length < effMin minR then
        match env.complete (expansionPrompt queryText) with
        | none => .error .completionError
        | some s => (expandLoop env t lim filt minR adaptive (parseVariations s) acc1).2
      else .ok acc1

/-- The id sequence of an accumulator or result list. -/
def idsOf (l : List ScoredRecord) : List String := l.map (fun r => r.id)

/-- Whether a recorded call is a search call that fails in the given
environment. -/
def searchFails (env : Env) : CallEvent → Bool
  | .searchCall v th l f => (env.search v th l f).isNone
  | _ => false

/-- The abort discipline of a traced computation: either no recorded search
call fails in `env` and the result is not the backend error, or the trace
ends at its one failing search call — nothing was retried or attempted after
it — and the result is the backend error. -/
def AbortDiscipline (env : Env) (tr : List CallEvent)
    (res : Except RecallError (List ScoredRecord)) : Prop :=
  ((∀ e ∈ tr, searchFails env e = false) ∧ res ≠ .error .backendError) ∨
  (∃ pre v th l f, tr = pre ++ [CallEvent.searchCall v th l f] ∧
    env.search v th l f = none ∧ res = .error .backendError ∧
    ∀ e ∈ pre, searchFails env e = false)

/-- Concrete environment whose backend never finds anything. -/
def envEmpty : Env where
  embed := fun _ => some [1]
  search := fun _ _ _ _ => some []
  complete := fun _ => some ""

/-- Concrete environment whose embedding provider always fails. -/
def envEmbedFail : Env where
  embed := fun _ => none
  search := fun _ _ _ _ => some []
  complete := fun _ => some ""

/-- Concrete environment whose backend always fails. -/
def envSearchFail : Env where
  embed := fun _ => some [1]
  search := fun _ _ _ _ => none
  complete := fun _ => some ""

/-- Concrete environment for semantic expansion: the original query and the
first variation find nothing at any threshold, the second variation's base
search returns two records, and a third variation exists but is never
tried. -/
def envExpand : Env where
  embed := fun s =>
    if s = "q" then some [1]
    else if s = "v1" then some [2]
    else if s = "v2" then some [3]
    else none
  search := fun v th _ _ =>
    if v = [3] ∧ th = 7/10 then
      some [⟨"a", 17/20, "pa"⟩, ⟨"b", 3/4, "pb"⟩]
    else some []
  complete := fun _ => some "v1\nv2\nv3"

/-- Concrete environment whose base search returns three records, two of them
with equal score, in the order a, b, c. -/
def envTie : Env where
  embed := fun _ => some [1]
  search := fun _ th _ _ =>
    if th = 7/10 then
      some [⟨"a", 1/2, "pa"⟩, ⟨"b", 17/20, "pb"⟩, ⟨"c", 1/2, "pc"⟩]
    else some []
  complete := fun _ => some ""

/-- Concrete environment whose base search returns two records in ascending
score order. -/
def envBase : Env where
  embed := fun _ => some [1]
  search := fun _ th _ _ =>
    if th = 7/10 then some [⟨"a", 1/2, "pa"⟩, ⟨"b", 17/20, "pb"⟩] else some []
  complete := fun _ => some ""

/-- Concrete environment for deduplication: the backend returns the same id
with score 0.5 at the base threshold and score 0.6 at every relaxed one. -/
def envDup : Env where
  embed := fun _ => some [1]
  search := fun _ th _ _ =>
    if th = 7/10 then some [⟨"a", 1/2, "p1"⟩] else some [⟨"a", 3/5, "p2"⟩]
  complete := fun _ => some ""

end MeshOS

namespace PropsOS

/-- A metadata filter value as accepted by `PropsOS.recall`
(src/props_os/core/client.py): either a plain value (wrapped into an `_eq`
comparison) or an already-structured operator object such as a `_gt` or
`_contains` comparison. -/
inductive FilterValue where
  | plain (s : String)
  | obj (entries : List (String × String))
deriving DecidableEq

/-- The `Memory` model of src/props_os/core/client.py. -/
structure Memory where
  id : String
  agentId : Option String
  content : String
  metadata : Option (List (String × String))
  embedding : Option MeshOS.Vec
deriving DecidableEq

/-- The failure modes of `PropsOS.recall`: the embedding call raising, or the
GraphQL search request failing. -/
inductive PropsError where
  | embeddingError
  | backendError
deriving DecidableEq

/-- One outbound call made by `PropsOS.recall`, with its arguments. -/
inductive PropsEvent where
  | embedCall (text : String)
  | searchCall (vec : MeshOS.Vec) (threshold : ℚ) (lim : Nat)
      (whereClause : List (String × FilterValue))
deriving DecidableEq

/-- The two external collaborators of `PropsOS.recall`: the OpenAI embedding
call and the Hasura GraphQL `search_memories` request; `none` models a raised
exception. -/
structure PropsEnv where
  embed : String → Option MeshOS.Vec
  search : List (String × FilterValue) → MeshOS.Vec → Nat → ℚ → Option (List Memory)

/-- Translated from src/props_os/core/client.py lines 190–203: build the
GraphQL where clause.  A truthy `agent_id` adds an `_eq` filter on `agent_id`;
each metadata filter entry is kept as-is when it is already an operator
object, and otherwise wrapped into an `_eq` comparison. -/
def buildWhereClause (agentId : Option String)
    (filters : Option (List (String × FilterValue))) : List (String × FilterValue) :=
  (match agentId with
   | some aid => if aid = "" then [] else [("agent_id", FilterValue.obj [("_eq", aid)])]
   | none => []) ++
  (match filters with
   | some fs =>
     fs.map (fun kv =>
       match kv.2 with
       | .obj entries => (kv.1, FilterValue.obj entries)
       | .plain v => (kv.1, FilterValue.obj [("_eq", v)]))
   | none => [])

/-- Translated from src/props_os/core/client.py lines 151–237,
`PropsOS.recall`: generate the query embedding (propagating any embedding
failure), build the where clause, issue a single `search_memories` request at
the given threshold and limit, and return the resulting memories.  The query
text is never validated. -/
def propsRecall (env : PropsEnv) (query : String) (agentId : Option String) (lim : Nat)
    (t : ℚ) (filters : Option (List (String × FilterValue))) :
    List PropsEvent × Except PropsError (List Memory) :=
  match env.embed query with
  | none => ([.embedCall query], .error .embeddingError)
  | some vec =>
    let w := buildWhereClause agentId filters
    match env.search w vec lim t with
    | none => ([.embedCall query, .searchCall vec t lim w], .error .backendError)
    | some ms => ([.embedCall query, .searchCall vec t lim w], .ok ms)

/-- Concrete environment for exercising `propsRecall`. -/
def propsEnv0 : PropsEnv where
  embed := fun _ => some [1]
  search := fun _ _ _ _ => some []

end PropsOS

namespace MeshOS

lemma effMin_pos (minR : ℕ) : 0 < effMin minR := by
  simp [effMin]

lemma relaxLoop_all_empty (env : Env) (vec : Vec) (lim : Nat) (filt : Option FilterPred)
    (minR : ℕ) (h : ∀ th, env.search vec th lim filt = some []) :
    ∀ ths : List ℚ, relaxLoop env vec lim filt minR ths [] =
      (ths.map (fun th => CallEvent.searchCall vec th lim filt), .ok [])
  | [] => rfl
  | th :: rest => by
    have h0 : ¬ effMin minR ≤ ([] : List ScoredRecord).length := by
      have := effMin_pos minR
      simp only [List.length_nil]
      omega
    simp only [relaxLoop, h0, if_false, h th, List.map_cons]
    have ih := relaxLoop_all_empty env vec lim filt minR h rest
    simp [accInsertAll, ih]

lemma sweep_all_empty (env : Env) (vec : Vec) (t : ℚ) (lim : Nat)
    (filt : Option FilterPred) (minR : ℕ) (h : ∀ th, env.search vec th lim filt = some []) :
    sweep env vec t lim filt minR true [] =
      ((t :: relaxedThresholds t).map (fun th => CallEvent.searchCall vec th lim filt),
        .ok []) := by
  have h0 : ([] : List ScoredRecord).length < effMin minR := effMin_pos minR
  simp only [sweep, h t, accInsertAll, List.foldl_nil]
  rw [if_pos ⟨trivial, h0⟩]
  simp [relaxLoop_all_empty env vec lim filt minR h (relaxedThresholds t)]

lemma relaxedThresholds_gt_floor (t : ℚ) :
    ∀ th ∈ relaxedThresholds t, floorThreshold < th := by
  intro th hth
  simp only [relaxedThresholds, List.mem_map, List.mem_range] at hth
  obtain ⟨k, hk, rfl⟩ := hth
  have hk2 : (k : ℤ) < ⌈20 * t - 6⌉ - 1 := by
    rw [relaxSteps] at hk
    omega
  have hceil : ((⌈20 * t - 6⌉ : ℤ) : ℚ) < (20 * t - 6) + 1 := Int.ceil_lt_add_one _
  have hk3 : ((k : ℚ) + 1) < 20 * t - 6 := by
    have hk4 : ((k : ℚ)) + 1 ≤ ((⌈20 * t - 6⌉ : ℤ) : ℚ) - 1 := by
      exact_mod_cast Int.add_one_le_of_lt hk2
    linarith
  simp only [floorThreshold, stepSize]
  linarith

theorem relaxSteps_at_07 : relaxSteps (7/10) = 7 := by decide

/-- C1: with adaptive thresholds enabled and `min_results` never satisfied (the
backend finds nothing at any threshold), recall issues the base search and then
repeats the search with the same query vector at thresholds decreasing in fixed
steps of 0.05, never trying any threshold at or below the floor 0.3; from
threshold 0.7 the thresholds tried are exactly 0.7, 0.65, 0.60, 0.55, 0.50,
0.45, 0.40, 0.35 — eight searches in total. -/
theorem recall_adaptive_threshold_sequence
    (env : Env) (q : String) (filt : Option FilterPred) (lim : Nat) (t : ℚ)
    (minR : ℕ) (vec : Vec)
    (h1 : env.embed q = some vec)
    (h2 : ∀ th, env.search vec th lim filt = some []) :
    («recall» env q filt lim t minR true false).1 =
        CallEvent.embedCall q ::
          (t :: relaxedThresholds t).map (fun th => CallEvent.searchCall vec th lim filt)
    ∧ (∀ th ∈ relaxedThresholds t, floorThreshold < th)
    ∧ relaxedThresholds (7/10) = [13/20, 3/5, 11/20, 1/2, 9/20, 2/5, 7/20] := by
  refine ⟨?_, relaxedThresholds_gt_floor t, by decide⟩
  simp only [«recall», h1, sweep_all_empty env vec t lim filt minR h2,
    Bool.false_eq_true, false_and, if_false]

theorem recall_adaptive_threshold_sequence_inst :
    («recall» envEmpty "query" none 5 (7/10) 3 true false).1 =
        CallEvent.embedCall "query" ::
          ((7/10 : ℚ) :: relaxedThresholds (7/10)).map
            (fun th => CallEvent.searchCall [1] th 5 none)
    ∧ (∀ th ∈ relaxedThresholds (7/10), floorThreshold < th)
    ∧ relaxedThresholds (7/10) = [13/20, 3/5, 11/20, 1/2, 9/20, 2/5, 7/20] :=
  recall_adaptive_threshold_sequence envEmpty "query" none 5 (7/10) 3 [1] rfl
    (fun _ => rfl)

lemma relaxLoop_calls (env : Env) (vec : Vec) (lim : Nat) (filt : Option FilterPred)
    (minR : ℕ) :
    ∀ (ths : List ℚ) (acc : List ScoredRecord),
      ∀ e ∈ (relaxLoop env vec lim filt minR ths acc).1,
        ∃ th ∈ ths, e = CallEvent.searchCall vec th lim filt
  | [], acc => by simp [relaxLoop]
  | th :: rest, acc => by
    intro e he
    by_cases hlen : effMin minR ≤ acc.length
    · simp only [relaxLoop, if_pos hlen] at he
      simp at he
    · simp only [relaxLoop, if_neg hlen] at he
      cases hs : env.search vec th lim filt with
      | none =>
        rw [hs] at he
        simp only [List.mem_singleton] at he
        exact ⟨th, List.mem_cons_self th rest, he⟩
      | some rs =>
        rw [hs] at he
        simp only [List.mem_cons] at he
        rcases he with rfl | he
        · exact ⟨th, List.mem_cons_self th rest, rfl⟩
        · obtain ⟨th2, hth2, rfl⟩ :=
            relaxLoop_calls env vec lim filt minR rest (accInsertAll acc rs) e he
          exact ⟨th2, List.mem_cons_of_mem th hth2, rfl⟩

lemma sweep_calls (env : Env) (vec : Vec) (t : ℚ) (lim : Nat) (filt : Option FilterPred)
    (minR : ℕ) (adaptive : Bool) (acc : List ScoredRecord) :
    ∀ e ∈ (sweep env vec t lim filt minR adaptive acc).1,
      ∃ th ∈ t :: relaxedThresholds t, e = CallEvent.searchCall vec th lim filt := by
  intro e he
  rw [sweep] at he
  cases hs : env.search vec t lim filt with
  | none =>
    simp only [hs, List.mem_singleton] at he
    exact ⟨t, List.mem_cons_self t _, he⟩
  | some rs =>
    simp only [hs] at he
    by_cases hcond : adaptive = true ∧ (accInsertAll acc rs).length < effMin minR
    · rw [if_pos hcond] at he
      simp only [List.mem_cons] at he
      rcases he with rfl | he
      · exact ⟨t, List.mem_cons_self t _, rfl⟩
      · obtain ⟨th2, hth2, rfl⟩ := relaxLoop_calls env vec lim filt minR
          (relaxedThresholds t) (accInsertAll acc rs) e he
        exact ⟨th2, List.mem_cons_of_mem t hth2, rfl⟩
    · rw [if_neg hcond] at he
      simp only [List.mem_singleton] at he
      exact ⟨t, List.mem_cons_self t _, he⟩

lemma sweep_calls_args (env : Env) (vec : Vec) (t : ℚ) (lim : Nat)
    (filt : Option FilterPred) (minR : ℕ) (adaptive : Bool) (acc : List ScoredRecord)
    (v : Vec) (th : ℚ) (l : Nat) (f : Option FilterPred)
    (h : CallEvent.searchCall v th l f ∈ (sweep env vec t lim filt minR adaptive acc).1) :
    v = vec ∧ l = lim ∧ f = filt := by
  obtain ⟨th2, _, heq⟩ := sweep_calls env vec t lim filt minR adaptive acc _ h
  simp only [CallEvent.searchCall.injEq] at heq
  exact ⟨heq.1, heq.2.2.1, heq.2.2.2⟩

lemma expandLoop_calls (env : Env) (t : ℚ) (lim : Nat) (filt : Option FilterPred)
    (minR : ℕ) (adaptive : Bool) :
    ∀ (vs : List String) (acc : List ScoredRecord)
      (v : Vec) (th : ℚ) (l : Nat) (f : Option FilterPred),
      CallEvent.searchCall v th l f ∈ (expandLoop env t lim filt minR adaptive vs acc).1 →
      l = lim ∧ f = filt
  | [], acc => by simp [expandLoop]
  | v0 :: rest, acc => by
    intro v th l f he
    by_cases hlen : effMin minR ≤ acc.length
    · simp only [expandLoop, if_pos hlen] at he
      simp at he
    · simp only [expandLoop, if_neg hlen] at he
      cases hemb : env.embed v0 with
      | none =>
        simp only [hemb] at he
        simp at he
      | some w =>
        simp only [hemb] at he
        cases hsw : (sweep env w t lim filt minR adaptive acc).2 with
        | error e2 =>
          simp only [hsw] at he
          simp only [List.mem_cons] at he
          rcases he with habs | he
          · exact absurd habs (by simp)
          · obtain ⟨_, hl, hf⟩ := sweep_calls_args env w t lim filt minR adaptive acc v th l f he
            exact ⟨hl, hf⟩
        | ok acc2 =>
          simp only [hsw] at he
          simp only [List.mem_append, List.mem_cons] at he
          rcases he with (habs | he) | he
          · exact absurd habs (by simp)
          · obtain ⟨_, hl, hf⟩ := sweep_calls_args env w t lim filt minR adaptive acc v th l f he
            exact ⟨hl, hf⟩
          · exact expandLoop_calls env t lim filt minR adaptive rest acc2 v th l f he

lemma recall_no_expansion_trace (env : Env) (q : String) (filt : Option FilterPred)
    (lim : Nat) (t : ℚ) (minR : ℕ) (adaptive : Bool) (vec : Vec)
    (h : env.embed q = some vec) :
    («recall» env q filt lim t minR adaptive false).1 =
      CallEvent.embedCall q :: (sweep env vec t lim filt minR adaptive []).1 := by
  cases hsw : (sweep env vec t lim filt minR adaptive []).2 with
  | error e => simp [«recall», h, hsw]
  | ok acc1 => simp [«recall», h, hsw, Bool.false_eq_true, false_and]

lemma sweep_nonadaptive_trace (env : Env) (vec : Vec) (t : ℚ) (lim : Nat)
    (filt : Option FilterPred) (minR : ℕ) (acc : List ScoredRecord) :
    (sweep env vec t lim filt minR false acc).1 = [CallEvent.searchCall vec t lim filt] := by
  rw [sweep]
  cases hs : env.search vec t lim filt with
  | none => simp
  | some rs => simp [Bool.false_eq_true, false_and]

/-- C6: the query embedding is computed exactly once per recall call and that
same vector is used by every search attempt in stages 1 and 2; when both
adaptive thresholds and semantic expansion are disabled, exactly one search
attempt is made, at the original threshold with the original embedding. -/
theorem recall_single_embedding_reuse
    (env : Env) (q : String) (filt : Option FilterPred) (lim : Nat) (t : ℚ)
    (minR : ℕ) (adaptive : Bool) (vec : Vec)
    (h : env.embed q = some vec) :
    ((«recall» env q filt lim t minR adaptive false).1.filter CallEvent.isEmbedCall
        = [CallEvent.embedCall q])
    ∧ (∀ v th l f, CallEvent.searchCall v th l f ∈
        («recall» env q filt lim t minR adaptive false).1 → v = vec)
    ∧ («recall» env q filt lim t minR false false).1 =
        [CallEvent.embedCall q, CallEvent.searchCall vec t lim filt] := by
  refine ⟨?_, ?_, ?_⟩
  · rw [recall_no_expansion_trace env q filt lim t minR adaptive vec h]
    rw [List.filter_cons]
    have hnil : (sweep env vec t lim filt minR adaptive []).1.filter
        CallEvent.isEmbedCall = [] := by
      rw [List.filter_eq_nil_iff]
      intro e he
      obtain ⟨th2, _, rfl⟩ := sweep_calls env vec t lim filt minR adaptive [] e he
      simp [CallEvent.isEmbedCall]
    simp [CallEvent.isEmbedCall, hnil]
  · intro v th l f hmem
    rw [recall_no_expansion_trace env q filt lim t minR adaptive vec h] at hmem
    simp only [List.mem_cons] at hmem
    rcases hmem with habs | hmem
    · exact absurd habs (by simp)
    · exact (sweep_calls_args env vec t lim filt minR adaptive [] v th l f hmem).1
  · rw [recall_no_expansion_trace env q filt lim t minR false vec h,
      sweep_nonadaptive_trace]

theorem recall_single_embedding_reuse_inst :
    ((«recall» envEmpty "q" none 5 (7/10) 3 true false).1.filter CallEvent.isEmbedCall
        = [CallEvent.embedCall "q"])
    ∧ (∀ v th l f, CallEvent.searchCall v th l f ∈
        («recall» envEmpty "q" none 5 (7/10) 3 true false).1 → v = [1])
    ∧ («recall» envEmpty "q" none 5 (7/10) 3 false false).1 =
        [CallEvent.embedCall "q", CallEvent.searchCall [1] (7/10) 5 none] :=
  recall_single_embedding_reuse envEmpty "q" none 5 (7/10) 3 true [1] rfl

/-- C9: the filter predicate (together with the limit) is forwarded verbatim
to every search attempt made in any stage of a recall call. -/
theorem recall_filter_forwarded
    (env : Env) (q : String) (filt : Option FilterPred) (lim : Nat) (t : ℚ)
    (minR : ℕ) (adaptive expansion : Bool) :
    ∀ v th l f, CallEvent.searchCall v th l f ∈
      («recall» env q filt lim t minR adaptive expansion).1 →
      f = filt ∧ l = lim := by
  intro v th l f hmem
  cases hemb : env.embed q with
  | none =>
    rw [«recall»] at hmem
    simp only [hemb] at hmem
    simp at hmem
  | some vec =>
    rw [«recall»] at hmem
    simp only [hemb] at hmem
    cases hsw : (sweep env vec t lim filt minR adaptive []).2 with
    | error e =>
      simp only [hsw] at hmem
      simp only [List.mem_cons] at hmem
      rcases hmem with habs | hmem
      · exact absurd habs (by simp)
      · obtain ⟨_, hl, hf⟩ := sweep_calls_args env vec t lim filt minR adaptive [] v th l f hmem
        exact ⟨hf, hl⟩
    | ok acc1 =>
      simp only [hsw] at hmem
      by_cases hcond : expansion = true ∧ acc1.length < effMin minR
      · rw [if_pos hcond] at hmem
        cases hcomp : env.complete (expansionPrompt q) with
        | none =>
          simp only [hcomp] at hmem
          simp only [List.mem_append, List.mem_cons, List.mem_singleton] at hmem
          rcases hmem with (habs | hmem) | habs
          · exact absurd habs (by simp)
          · obtain ⟨_, hl, hf⟩ :=
              sweep_calls_args env vec t lim filt minR adaptive [] v th l f hmem
            exact ⟨hf, hl⟩
          · exact absurd habs (by simp)
        | some s =>
          simp only [hcomp] at hmem
          cases hex : (expandLoop env t lim filt minR adaptive (parseVariations s) acc1).2 with
          | error e2 =>
            simp only [hex] at hmem
            simp only [List.mem_append, List.mem_cons] at hmem
            rcases hmem with (habs | hmem) | (habs | hmem)
            · exact absurd habs (by simp)
            · obtain ⟨_, hl, hf⟩ :=
                sweep_calls_args env vec t lim filt minR adaptive [] v th l f hmem
              exact ⟨hf, hl⟩
            · exact absurd habs (by simp)
            · obtain ⟨hl, hf⟩ := expandLoop_calls env t lim filt minR adaptive
                (parseVariations s) acc1 v th l f hmem
              exact ⟨hf, hl⟩
          | ok acc2 =>
            simp only [hex] at hmem
            simp only [List.mem_append, List.mem_cons] at hmem
            rcases hmem with (habs | hmem) | (habs | hmem)
            · exact absurd habs (by simp)
            · obtain ⟨_, hl, hf⟩ :=
                sweep_calls_args env vec t lim filt minR adaptive [] v th l f hmem
              exact ⟨hf, hl⟩
            · exact absurd habs (by simp)
            · obtain ⟨hl, hf⟩ := expandLoop_calls env t lim filt minR adaptive
                (parseVariations s) acc1 v th l f hmem
              exact ⟨hf, hl⟩
      · rw [if_neg hcond] at hmem
        simp only [List.mem_cons] at hmem
        rcases hmem with habs | hmem
        · exact absurd habs (by simp)
        · obtain ⟨_, hl, hf⟩ :=
            sweep_calls_args env vec t lim filt minR adaptive [] v th l f hmem
          exact ⟨hf, hl⟩

theorem recall_filter_forwarded_inst :
    (some "flt" : Option FilterPred) = some "flt" ∧ (5 : Nat) = 5 :=
  recall_filter_forwarded envEmpty "q" (some "flt") 5 (7/10) 3 true false
    [1] (7/10) 5 (some "flt") (by decide)

lemma expandLoop_done (env : Env) (t : ℚ) (lim : Nat) (filt : Option FilterPred)
    (minR : ℕ) (adaptive : Bool) (vs : List String) (acc : List ScoredRecord)
    (h : effMin minR ≤ acc.length) :
    expandLoop env t lim filt minR adaptive vs acc = ([], .ok acc) := by
  cases vs with
  | nil => rfl
  | cons v rest => rw [expandLoop, if_pos h]

lemma sweep_satisfied (env : Env) (vec : Vec) (t : ℚ) (lim : Nat)
    (filt : Option FilterPred) (minR : ℕ) (rs : List ScoredRecord)
    (acc : List ScoredRecord)
    (hs : env.search vec t lim filt = some rs)
    (h : effMin minR ≤ (accInsertAll acc rs).length) :
    sweep env vec t lim filt minR true acc =
      ([CallEvent.searchCall vec t lim filt], .ok (accInsertAll acc rs)) := by
  rw [sweep]
  simp only [hs]
  have hcond : ¬(True ∧ (accInsertAll acc rs).length < effMin minR) := by
    rintro ⟨-, hlt⟩
    omega
  rw [if_neg hcond]

lemma filter_searchMap_embed (vec : Vec) (lim : Nat) (filt : Option FilterPred) :
    ∀ ths : List ℚ,
      (ths.map (fun th => CallEvent.searchCall vec th lim filt)).filter
          CallEvent.isEmbedCall = []
  | [] => rfl
  | th :: rest => by
    simp [CallEvent.isEmbedCall, filter_searchMap_embed vec lim filt rest]

lemma filter_searchMap_complete (vec : Vec) (lim : Nat) (filt : Option FilterPred) :
    ∀ ths : List ℚ,
      (ths.map (fun th => CallEvent.searchCall vec th lim filt)).filter
          CallEvent.isCompleteCall = []
  | [] => rfl
  | th :: rest => by
    simp [CallEvent.isCompleteCall, filter_searchMap_complete vec lim filt rest]

/-- C2: when semantic expansion is enabled and stages 1–2 leave the
accumulated count below the effective minimum, recall makes exactly one
text-completion call, then walks the returned variations in order: each tried
variation gets a fresh embedding and the full stage-1 + stage-2 search
sub-procedure, and as soon as the accumulated count reaches the minimum the
remaining variations are never tried (not even embedded).  Here the first
variation finds nothing, the second one's base search satisfies the
minimum, and the remaining variations are skipped. -/
theorem recall_semantic_expansion_order
    (env : Env) (q : String) (filt : Option FilterPred) (lim : Nat) (t : ℚ) (minR : ℕ)
    (vec w1 w2 : Vec) (s v1 v2 : String) (rest : List String) (rs : List ScoredRecord)
    (h1 : env.embed q = some vec)
    (h2 : ∀ th, env.search vec th lim filt = some [])
    (h3 : env.complete (expansionPrompt q) = some s)
    (h4 : parseVariations s = v1 :: v2 :: rest)
    (h5 : env.embed v1 = some w1)
    (h6 : ∀ th, env.search w1 th lim filt = some [])
    (h7 : env.embed v2 = some w2)
    (h8 : env.search w2 t lim filt = some rs)
    (h9 : effMin minR ≤ (accInsertAll [] rs).length) :
    («recall» env q filt lim t minR true true).1 =
        CallEvent.embedCall q ::
          ((t :: relaxedThresholds t).map (fun th => CallEvent.searchCall vec th lim filt) ++
            CallEvent.completeCall (expansionPrompt q) ::
              CallEvent.embedCall v1 ::
                ((t :: relaxedThresholds t).map
                    (fun th => CallEvent.searchCall w1 th lim filt) ++
                  [CallEvent.embedCall v2, CallEvent.searchCall w2 t lim filt]))
    ∧ («recall» env q filt lim t minR true true).2 =
        .ok (rankResults lim (accInsertAll [] rs))
    ∧ («recall» env q filt lim t minR true true).1.filter CallEvent.isCompleteCall =
        [CallEvent.completeCall (expansionPrompt q)]
    ∧ («recall» env q filt lim t minR true true).1.filter CallEvent.isEmbedCall =
        [CallEvent.embedCall q, CallEvent.embedCall v1, CallEvent.embedCall v2] := by
  have h0 : ¬ effMin minR ≤ ([] : List ScoredRecord).length := by
    have := effMin_pos minR
    simp only [List.length_nil]
    omega
  have hsw0 := sweep_all_empty env vec t lim filt minR h2
  have hsw1 := sweep_all_empty env w1 t lim filt minR h6
  have hsw2 := sweep_satisfied env w2 t lim filt minR rs [] h8 h9
  have hex2 : expandLoop env t lim filt minR true (v2 :: rest) [] =
      ([CallEvent.embedCall v2, CallEvent.searchCall w2 t lim filt],
        .ok (accInsertAll [] rs)) := by
    rw [expandLoop, if_neg h0]
    simp [h7, hsw2, expandLoop_done env t lim filt minR true rest (accInsertAll [] rs) h9]
  have hex1 : expandLoop env t lim filt minR true (v1 :: v2 :: rest) [] =
      (CallEvent.embedCall v1 ::
          ((t :: relaxedThresholds t).map (fun th => CallEvent.searchCall w1 th lim filt) ++
            [CallEvent.embedCall v2, CallEvent.searchCall w2 t lim filt]),
        .ok (accInsertAll [] rs)) := by
    rw [expandLoop, if_neg h0]
    simp [h5, hsw1, hex2]
  have hrec : «recall» env q filt lim t minR true true =
      (CallEvent.embedCall q ::
          ((t :: relaxedThresholds t).map (fun th => CallEvent.searchCall vec th lim filt) ++
            CallEvent.completeCall (expansionPrompt q) ::
              CallEvent.embedCall v1 ::
                ((t :: relaxedThresholds t).map
                    (fun th => CallEvent.searchCall w1 th lim filt) ++
                  [CallEvent.embedCall v2, CallEvent.searchCall w2 t lim filt])),
        .ok (rankResults lim (accInsertAll [] rs))) := by
    rw [«recall»]
    simp only [h1, hsw0]
    rw [if_pos ⟨trivial, effMin_pos minR⟩]
    simp only [h3, h4, hex1]
    simp
  refine ⟨by rw [hrec], by rw [hrec], ?_, ?_⟩
  · rw [show («recall» env q filt lim t minR true true).1 = _ from by rw [hrec]]
    simp [List.filter_append, CallEvent.isCompleteCall, CallEvent.isEmbedCall,
      filter_searchMap_complete]
  · rw [show («recall» env q filt lim t minR true true).1 = _ from by rw [hrec]]
    simp [List.filter_append, CallEvent.isCompleteCall, CallEvent.isEmbedCall,
      filter_searchMap_embed]

theorem recall_semantic_expansion_order_inst :
    («recall» envExpand "q" none 4 (7/10) 1 true true).1 =
        CallEvent.embedCall "q" ::
          (((7/10 : ℚ) :: relaxedThresholds (7/10)).map
              (fun th => CallEvent.searchCall [1] th 4 none) ++
            CallEvent.completeCall (expansionPrompt "q") ::
              CallEvent.embedCall "v1" ::
                (((7/10 : ℚ) :: relaxedThresholds (7/10)).map
                    (fun th => CallEvent.searchCall [2] th 4 none) ++
                  [CallEvent.embedCall "v2", CallEvent.searchCall [3] (7/10) 4 none]))
    ∧ («recall» envExpand "q" none 4 (7/10) 1 true true).2 =
        .ok (rankResults 4 (accInsertAll [] [⟨"a", 17/20, "pa"⟩, ⟨"b", 3/4, "pb"⟩]))
    ∧ («recall» envExpand "q" none 4 (7/10) 1 true true).1.filter
        CallEvent.isCompleteCall = [CallEvent.completeCall (expansionPrompt "q")]
    ∧ («recall» envExpand "q" none 4 (7/10) 1 true true).1.filter
        CallEvent.isEmbedCall =
        [CallEvent.embedCall "q", CallEvent.embedCall "v1", CallEvent.embedCall "v2"] :=
  recall_semantic_expansion_order envExpand "q" none 4 (7/10) 1 [1] [2] [3]
    "v1\nv2\nv3" "v1" "v2" ["v3"] [⟨"a", 17/20, "pa"⟩, ⟨"b", 3/4, "pb"⟩]
    (by decide) (fun th => by simp [envExpand]) (by decide) (by decide)
    (by decide) (fun th => by simp [envExpand]) (by decide) (by decide) (by decide)

lemma relaxedThresholds_lt (t : ℚ) : ∀ th ∈ relaxedThresholds t, th < t := by
  intro th hth
  simp only [relaxedThresholds, List.mem_map, List.mem_range] at hth
  obtain ⟨k, _, rfl⟩ := hth
  have hpos : 0 < ((k : ℚ) + 1) * stepSize := by
    have hk : (0 : ℚ) ≤ (k : ℚ) := Nat.cast_nonneg k
    have hstep : (0 : ℚ) < stepSize := by norm_num [stepSize]
    nlinarith
  linarith

lemma relaxLoop_dup (env : Env) (vec : Vec) (lim : Nat) (filt : Option FilterPred)
    (minR : ℕ) (m r2 : ScoredRecord) (hid : m.id = r2.id) (hs2 : ¬ m.score < r2.score)
    (hmin : ¬ effMin minR ≤ 1) :
    ∀ ths : List ℚ, (∀ th ∈ ths, env.search vec th lim filt = some [r2]) →
      (relaxLoop env vec lim filt minR ths [m]).2 = .ok [m]
  | [], _ => rfl
  | th :: rest, hsearch => by
    have hlen : ¬ effMin minR ≤ ([m] : List ScoredRecord).length := by
      simpa using hmin
    rw [relaxLoop, if_neg hlen]
    simp only [hsearch th (List.mem_cons_self th rest)]
    have hacc : accInsertAll [m] [r2] = [m] := by
      simp [accInsertAll, accInsert, hid, hs2]
    rw [hacc]
    exact relaxLoop_dup env vec lim filt minR m r2 hid hs2 hmin rest
      (fun th2 ht2 => hsearch th2 (List.mem_cons_of_mem th ht2))

/-- C3: when the same record id is returned by more than one search attempt
with different scores, the final output contains that id exactly once, with
the highest score observed for it: here the base search returns the id with
score `s1` and every relaxed attempt returns it with score `s2`, and the
output is the single record with score `max s1 s2` (the first-seen payload is
kept). -/
theorem recall_dedup_keeps_best_score
    (env : Env) (q : String) (filt : Option FilterPred) (lim : Nat) (t : ℚ) (minR : ℕ)
    (vec : Vec) (i p1 p2 : String) (s1 s2 : ℚ)
    (h1 : env.embed q = some vec)
    (hbase : env.search vec t lim filt = some [⟨i, s1, p1⟩])
    (hothers : ∀ th, th ≠ t → env.search vec th lim filt = some [⟨i, s2, p2⟩])
    (hsteps : 1 ≤ relaxSteps t)
    (hmin : ¬ effMin minR ≤ 1)
    (hlim : 1 ≤ lim) :
    («recall» env q filt lim t minR true false).2 =
      .ok [⟨i, max s1 s2, p1⟩] := by
  obtain ⟨th0, restThs, hths⟩ : ∃ a l, relaxedThresholds t = a :: l := by
    cases hcase : relaxedThresholds t with
    | nil =>
      exfalso
      have hlen : (relaxedThresholds t).length = relaxSteps t := by
        simp [relaxedThresholds]
      rw [hcase] at hlen
      simp at hlen
      omega
    | cons a l => exact ⟨a, l, rfl⟩
  have hne : ∀ th ∈ relaxedThresholds t, th ≠ t :=
    fun th hth => ne_of_lt (relaxedThresholds_lt t th hth)
  have hacc2 : accInsertAll [(⟨i, s1, p1⟩ : ScoredRecord)] [⟨i, s2, p2⟩] =
      [⟨i, max s1 s2, p1⟩] := by
    by_cases hcmp : s1 < s2
    · simp [accInsertAll, accInsert, hcmp, max_eq_right hcmp.le]
    · simp [accInsertAll, accInsert, hcmp, max_eq_left (not_lt.mp hcmp)]
  have hsw2 : (sweep env vec t lim filt minR true []).2 = .ok [⟨i, max s1 s2, p1⟩] := by
    rw [sweep]
    simp only [hbase]
    have hlt : (accInsertAll [] [(⟨i, s1, p1⟩ : ScoredRecord)]).length < effMin minR := by
      have : accInsertAll [] [(⟨i, s1, p1⟩ : ScoredRecord)] = [⟨i, s1, p1⟩] := rfl
      rw [this]
      simp only [List.length_singleton]
      omega
    rw [if_pos ⟨trivial, hlt⟩]
    show (relaxLoop env vec lim filt minR (relaxedThresholds t)
      (accInsertAll [] [⟨i, s1, p1⟩])).2 = _
    have haccb : accInsertAll [] [(⟨i, s1, p1⟩ : ScoredRecord)] = [⟨i, s1, p1⟩] := rfl
    rw [haccb, hths, relaxLoop]
    have hlen1 : ¬ effMin minR ≤ ([(⟨i, s1, p1⟩ : ScoredRecord)]).length := by
      simpa using hmin
    rw [if_neg hlen1]
    have hth0 : env.search vec th0 lim filt = some [⟨i, s2, p2⟩] :=
      hothers th0 (hne th0 (hths ▸ List.mem_cons_self th0 restThs))
    simp only [hth0, hacc2]
    exact relaxLoop_dup env vec lim filt minR ⟨i, max s1 s2, p1⟩ ⟨i, s2, p2⟩ rfl
      (by simp [le_max_right s1 s2, not_lt]) hmin restThs
      (fun th2 ht2 =>
        hothers th2 (hne th2 (hths ▸ List.mem_cons_of_mem th0 ht2)))
  have hrank : rankResults lim [(⟨i, max s1 s2, p1⟩ : ScoredRecord)] =
      [⟨i, max s1 s2, p1⟩] := by
    obtain ⟨n, rfl⟩ : ∃ n, lim = n + 1 := ⟨lim - 1, by omega⟩
    simp [rankResults, sortByScore, insertByScore]
  rw [«recall»]
  simp only [h1, hsw2]
  simp [Bool.false_eq_true, false_and, hrank]

theorem recall_dedup_keeps_best_score_inst :
    («recall» envDup "q" none 5 (7/10) 2 true false).2 =
      .ok [⟨"a", max (1/2) (3/5), "p1"⟩] :=
  recall_dedup_keeps_best_score envDup "q" none 5 (7/10) 2 [1] "a" "p1" "p2"
    (1/2) (3/5) rfl (by decide)
    (fun th hne => by simp [envDup, hne]) (by decide) (by decide) (by decide)

lemma insertByScore_perm (r : ScoredRecord) :
    ∀ l : List ScoredRecord, (insertByScore r l).Perm (r :: l)
  | [] => List.Perm.refl _
  | x :: xs => by
    rw [insertByScore]
    by_cases h : x.score ≤ r.score
    · rw [if_pos h]
    · rw [if_neg h]
      exact ((insertByScore_perm r xs).cons x).trans (List.Perm.swap r x xs)

lemma sortByScore_perm : ∀ l : List ScoredRecord, (sortByScore l).Perm l
  | [] => List.Perm.refl _
  | a :: rest => by
    rw [sortByScore]
    exact (insertByScore_perm a (sortByScore rest)).trans
      ((sortByScore_perm rest).cons a)

lemma mem_insertByScore {r y : ScoredRecord} {l : List ScoredRecord} :
    y ∈ insertByScore r l ↔ y = r ∨ y ∈ l := by
  have h := (insertByScore_perm r l).mem_iff (a := y)
  simpa using h

lemma insertByScore_sorted (r : ScoredRecord) :
    ∀ l : List ScoredRecord, l.Pairwise (fun a b => b.score ≤ a.score) →
      (insertByScore r l).Pairwise (fun a b => b.score ≤ a.score)
  | [], _ => by simp [insertByScore]
  | x :: xs, hp => by
    rw [insertByScore]
    have hx := List.pairwise_cons.mp hp
    by_cases h : x.score ≤ r.score
    · rw [if_pos h]
      refine List.Pairwise.cons ?_ hp
      intro y hy
      rcases List.mem_cons.mp hy with rfl | hy
      · exact h
      · exact le_trans (hx.1 y hy) h
    · rw [if_neg h]
      refine List.Pairwise.cons ?_ (insertByScore_sorted r xs hx.2)
      intro y hy
      rcases mem_insertByScore.mp hy with rfl | hy
      · exact le_of_lt (lt_of_not_ge h)
      · exact hx.1 y hy

lemma sortByScore_sorted :
    ∀ l : List ScoredRecord, (sortByScore l).Pairwise (fun a b => b.score ≤ a.score)
  | [] => List.Pairwise.nil
  | a :: rest => insertByScore_sorted a _ (sortByScore_sorted rest)

lemma insertByScore_filter (r : ScoredRecord) (s : ℚ) :
    ∀ l : List ScoredRecord,
      (insertByScore r l).filter (fun x => decide (x.score = s)) =
        if r.score = s then r :: l.filter (fun x => decide (x.score = s))
        else l.filter (fun x => decide (x.score = s))
  | [] => by
    by_cases h : r.score = s <;> simp [insertByScore, h]
  | x :: xs => by
    rw [insertByScore]
    by_cases hle : x.score ≤ r.score
    · rw [if_pos hle]
      by_cases hr : r.score = s <;> simp [List.filter_cons, hr]
    · rw [if_neg hle]
      rw [List.filter_cons, List.filter_cons, insertByScore_filter r s xs]
      by_cases hx : x.score = s
      · by_cases hr : r.score = s
        · exact absurd (hx.trans hr.symm ▸ le_refl x.score) hle
        · simp [hx, hr]
      · by_cases hr : r.score = s <;> simp [hx, hr]

lemma sortByScore_filter (s : ℚ) :
    ∀ l : List ScoredRecord,
      (sortByScore l).filter (fun x => decide (x.score = s)) =
        l.filter (fun x => decide (x.score = s))
  | [] => rfl
  | a :: rest => by
    rw [sortByScore, insertByScore_filter a s (sortByScore rest), List.filter_cons]
    by_cases h : a.score = s <;> simp [h, sortByScore_filter s rest]

lemma idsOf_cons (x : ScoredRecord) (l : List ScoredRecord) :
    idsOf (x :: l) = x.id :: idsOf l := rfl

lemma idsOf_accInsert : ∀ (acc : List ScoredRecord) (r : ScoredRecord),
    idsOf (accInsert acc r) =
      if r.id ∈ idsOf acc then idsOf acc else idsOf acc ++ [r.id]
  | [], r => by simp [accInsert, idsOf]
  | a :: rest, r => by
    rw [accInsert]
    by_cases hid : a.id = r.id
    · rw [if_pos hid]
      have hmem : r.id ∈ idsOf (a :: rest) := by
        simp only [idsOf, List.map_cons, List.mem_cons]
        exact Or.inl hid.symm
      rw [if_pos hmem]
      by_cases hsc : a.score < r.score
      · simp [idsOf, if_pos hsc, hid]
      · simp [idsOf, if_neg hsc]
    · rw [if_neg hid]
      have hiff : (r.id ∈ idsOf (a :: rest)) ↔ (r.id ∈ idsOf rest) := by
        simp only [idsOf, List.map_cons, List.mem_cons]
        constructor
        · rintro (heq | hm)
          · exact absurd heq.symm hid
          · exact hm
        · exact Or.inr
      by_cases hmem : r.id ∈ idsOf rest
      · rw [if_pos (hiff.mpr hmem)]
        rw [idsOf_cons, idsOf_cons, idsOf_accInsert rest r, if_pos hmem]
      · rw [if_neg (fun hm => hmem (hiff.mp hm))]
        rw [idsOf_cons, idsOf_cons, idsOf_accInsert rest r, if_neg hmem]
        rfl

lemma idsOf_accInsert_nodup (acc : List ScoredRecord) (r : ScoredRecord)
    (h : (idsOf acc).Nodup) : (idsOf (accInsert acc r)).Nodup := by
  rw [idsOf_accInsert]
  by_cases hmem : r.id ∈ idsOf acc
  · rwa [if_pos hmem]
  · rw [if_neg hmem]
    refine h.append (List.nodup_singleton _) ?_
    intro x hx
    simp only [List.mem_singleton]
    rintro rfl
    exact hmem hx

lemma idsOf_accInsertAll_nodup :
    ∀ (rs : List ScoredRecord) (acc : List ScoredRecord),
      (idsOf acc).Nodup → (idsOf (accInsertAll acc rs)).Nodup
  | [], acc, h => h
  | r :: rs, acc, h => by
    rw [accInsertAll, List.foldl_cons]
    exact idsOf_accInsertAll_nodup rs (accInsert acc r) (idsOf_accInsert_nodup acc r h)

lemma relaxLoop_ok_nodup (env : Env) (vec : Vec) (lim : Nat) (filt : Option FilterPred)
    (minR : ℕ) :
    ∀ (ths : List ℚ) (acc acc' : List ScoredRecord),
      (relaxLoop env vec lim filt minR ths acc).2 = .ok acc' →
      (idsOf acc).Nodup → (idsOf acc').Nodup
  | [], acc, acc' => by
    intro h hn
    rw [relaxLoop] at h
    cases h
    exact hn
  | th :: rest, acc, acc' => by
    intro h hn
    rw [relaxLoop] at h
    by_cases hlen : effMin minR ≤ acc.length
    · rw [if_pos hlen] at h
      cases h
      exact hn
    · rw [if_neg hlen] at h
      cases hs : env.search vec th lim filt with
      | none =>
        rw [hs] at h
        cases h
      | some rs =>
        rw [hs] at h
        exact relaxLoop_ok_nodup env vec lim filt minR rest (accInsertAll acc rs) acc' h
          (idsOf_accInsertAll_nodup rs acc hn)

lemma sweep_ok_nodup (env : Env) (vec : Vec) (t : ℚ) (lim : Nat)
    (filt : Option FilterPred) (minR : ℕ) (adaptive : Bool)
    (acc acc' : List ScoredRecord)
    (h : (sweep env vec t lim filt minR adaptive acc).2 = .ok acc')
    (hn : (idsOf acc).Nodup) : (idsOf acc').Nodup := by
  rw [sweep] at h
  cases hs : env.search vec t lim filt with
  | none =>
    simp only [hs] at h
    cases h
  | some rs =>
    simp only [hs] at h
    by_cases hcond : adaptive = true ∧ (accInsertAll acc rs).length < effMin minR
    · rw [if_pos hcond] at h
      exact relaxLoop_ok_nodup env vec lim filt minR (relaxedThresholds t)
        (accInsertAll acc rs) acc' h (idsOf_accInsertAll_nodup rs acc hn)
    · rw [if_neg hcond] at h
      cases h
      exact idsOf_accInsertAll_nodup rs acc hn

lemma expandLoop_ok_nodup (env : Env) (t : ℚ) (lim : Nat) (filt : Option FilterPred)
    (minR : ℕ) (adaptive : Bool) :
    ∀ (vs : List String) (acc acc' : List ScoredRecord),
      (expandLoop env t lim filt minR adaptive vs acc).2 = .ok acc' →
      (idsOf acc).Nodup → (idsOf acc').Nodup
  | [], acc, acc' => by
    intro h hn
    rw [expandLoop] at h
    cases h
    exact hn
  | v :: rest, acc, acc' => by
    intro h hn
    rw [expandLoop] at h
    by_cases hlen : effMin minR ≤ acc.length
    · rw [if_pos hlen] at h
      cases h
      exact hn
    · rw [if_neg hlen] at h
      cases hemb : env.embed v with
      | none =>
        rw [hemb] at h
        cases h
      | some w =>
        simp only [hemb] at h
        cases hsw : (sweep env w t lim filt minR adaptive acc).2 with
        | error e =>
          simp only [hsw] at h
          cases h
        | ok acc2 =>
          simp only [hsw] at h
          exact expandLoop_ok_nodup env t lim filt minR adaptive rest acc2 acc' h
            (sweep_ok_nodup env w t lim filt minR adaptive acc acc2 hsw hn)

lemma recall_ok_shape (env : Env) (q : String) (filt : Option FilterPred) (lim : Nat)
    (t : ℚ) (minR : ℕ) (adaptive expansion : Bool) (out : List ScoredRecord)
    (h : («recall» env q filt lim t minR adaptive expansion).2 = .ok out) :
    ∃ acc, out = rankResults lim acc ∧ (idsOf acc).Nodup := by
  rw [«recall»] at h
  cases hemb : env.embed q with
  | none =>
    rw [hemb] at h
    cases h
  | some vec =>
    simp only [hemb] at h
    cases hsw : (sweep env vec t lim filt minR adaptive []).2 with
    | error e =>
      simp only [hsw] at h
      cases h
    | ok acc1 =>
      simp only [hsw] at h
      have hn1 : (idsOf acc1).Nodup :=
        sweep_ok_nodup env vec t lim filt minR adaptive [] acc1 hsw (by simp [idsOf])
      by_cases hcond : expansion = true ∧ acc1.length < effMin minR
      · rw [if_pos hcond] at h
        cases hcomp : env.complete (expansionPrompt q) with
        | none =>
          rw [hcomp] at h
          cases h
        | some s =>
          simp only [hcomp] at h
          cases hex : (expandLoop env t lim filt minR adaptive (parseVariations s) acc1).2 with
          | error e =>
            simp only [hex] at h
            cases h
          | ok acc2 =>
            simp only [hex] at h
            cases h
            exact ⟨acc2, rfl,
              expandLoop_ok_nodup env t lim filt minR adaptive (parseVariations s)
                acc1 acc2 hex hn1⟩
      · rw [if_neg hcond] at h
        cases h
        exact ⟨acc1, rfl, hn1⟩

lemma recall_res_eq_map_rank (env : Env) (q : String) (filt : Option FilterPred)
    (lim : Nat) (t : ℚ) (minR : ℕ) (adaptive expansion : Bool) :
    («recall» env q filt lim t minR adaptive expansion).2 =
      (recallAcc env q filt lim t minR adaptive expansion).map (rankResults lim) := by
  rw [«recall», recallAcc]
  cases hemb : env.embed q with
  | none => simp [Except.map]
  | some vec =>
    simp only [hemb]
    cases hsw : (sweep env vec t lim filt minR adaptive []).2 with
    | error e =>
      simp only [hsw]
      rfl
    | ok acc1 =>
      simp only [hsw]
      by_cases hcond : expansion = true ∧ acc1.length < effMin minR
      · rw [if_pos hcond, if_pos hcond]
        cases hcomp : env.complete (expansionPrompt q) with
        | none =>
          simp only [hcomp]
          rfl
        | some s =>
          simp only [hcomp]
          cases hex : (expandLoop env t lim filt minR adaptive
              (parseVariations s) acc1).2 with
          | error e =>
            simp only [hex]
            rfl
          | ok acc2 =>
            simp only [hex]
            rfl
      · rw [if_neg hcond, if_neg hcond]
        rfl

/-- C4: every list recall returns normally is sorted by score in
non-increasing order, and it is the stable ranking of that very run's
accumulator (exposed by `recallAcc`, whose value is pinned to the run by
`recall_res_eq_map_rank`): the output equals `rankResults limit acc`, and for
every score the output's records of that score are, in order, a prefix of the
accumulator's records of that score — ties between equal scores are broken by
the accumulator's first-seen order. -/
theorem recall_output_sorted (env : Env) (q : String) (filt : Option FilterPred)
    (lim : Nat) (t : ℚ) (minR : ℕ) (adaptive expansion : Bool)
    (out : List ScoredRecord)
    (h : («recall» env q filt lim t minR adaptive expansion).2 = .ok out) :
    out.Pairwise (fun r1 r2 => r2.score ≤ r1.score)
    ∧ ∃ acc, recallAcc env q filt lim t minR adaptive expansion = .ok acc
        ∧ out = rankResults lim acc
        ∧ ∀ s : ℚ, ∃ tail,
            acc.filter (fun r => decide (r.score = s)) =
              out.filter (fun r => decide (r.score = s)) ++ tail := by
  have hlink := recall_res_eq_map_rank env q filt lim t minR adaptive expansion
  rw [h] at hlink
  cases hacc : recallAcc env q filt lim t minR adaptive expansion with
  | error e =>
    rw [hacc] at hlink
    cases hlink
  | ok acc =>
    rw [hacc] at hlink
    simp only [Except.map, Except.ok.injEq] at hlink
    subst hlink
    constructor
    · exact ((sortByScore_sorted acc).sublist (List.take_sublist lim _))
    · refine ⟨acc, rfl, rfl, ?_⟩
      intro s
      refine ⟨((sortByScore acc).drop lim).filter (fun r => decide (r.score = s)), ?_⟩
      calc acc.filter (fun r => decide (r.score = s))
          = (sortByScore acc).filter (fun r => decide (r.score = s)) :=
            (sortByScore_filter s acc).symm
        _ = ((sortByScore acc).take lim ++ (sortByScore acc).drop lim).filter
              (fun r => decide (r.score = s)) := by rw [List.take_append_drop]
        _ = (rankResults lim acc).filter (fun r => decide (r.score = s)) ++
              ((sortByScore acc).drop lim).filter (fun r => decide (r.score = s)) := by
            rw [List.filter_append]
            rfl

theorem recall_output_sorted_inst :
    ([(⟨"b", 17/20, "pb"⟩ : ScoredRecord), ⟨"a", 1/2, "pa"⟩, ⟨"c", 1/2, "pc"⟩].Pairwise
        (fun r1 r2 => r2.score ≤ r1.score))
    ∧ ∃ acc, recallAcc envTie "q" none 5 (7/10) 1 true false = .ok acc
        ∧ [(⟨"b", 17/20, "pb"⟩ : ScoredRecord), ⟨"a", 1/2, "pa"⟩, ⟨"c", 1/2, "pc"⟩] =
            rankResults 5 acc
        ∧ ∀ s : ℚ, ∃ tail,
            acc.filter (fun r => decide (r.score = s)) =
              [(⟨"b", 17/20, "pb"⟩ : ScoredRecord), ⟨"a", 1/2, "pa"⟩,
                ⟨"c", 1/2, "pc"⟩].filter (fun r => decide (r.score = s)) ++ tail :=
  recall_output_sorted envTie "q" none 5 (7/10) 1 true false
    [⟨"b", 17/20, "pb"⟩, ⟨"a", 1/2, "pa"⟩, ⟨"c", 1/2, "pc"⟩] rfl

/-- C5: every list recall returns has length at most `limit` and contains no
two records with the same id — deduplication is by id. -/
theorem recall_output_bounded_nodup (env : Env) (q : String) (filt : Option FilterPred)
    (lim : Nat) (t : ℚ) (minR : ℕ) (adaptive expansion : Bool)
    (out : List ScoredRecord)
    (h : («recall» env q filt lim t minR adaptive expansion).2 = .ok out) :
    out.length ≤ lim ∧ (idsOf out).Nodup := by
  obtain ⟨acc, rfl, hnd⟩ :=
    recall_ok_shape env q filt lim t minR adaptive expansion out h
  constructor
  · rw [rankResults, List.length_take]
    exact min_le_left _ _
  · have hperm : (idsOf (sortByScore acc)).Perm (idsOf acc) := by
      simp only [idsOf]
      exact (sortByScore_perm acc).map _
    have hsort : (idsOf (sortByScore acc)).Nodup := hperm.symm.nodup hnd
    have htake : idsOf (rankResults lim acc) = (idsOf (sortByScore acc)).take lim := by
      rw [rankResults, idsOf, idsOf, List.map_take]
    rw [htake]
    exact hsort.sublist (List.take_sublist lim _)

theorem recall_output_bounded_nodup_inst :
    ([(⟨"b", 17/20, "pb"⟩ : ScoredRecord), ⟨"a", 1/2, "pa"⟩].length ≤ 5)
    ∧ (idsOf [(⟨"b", 17/20, "pb"⟩ : ScoredRecord), ⟨"a", 1/2, "pa"⟩]).Nodup :=
  recall_output_bounded_nodup envBase "q" none 5 (7/10) 1 true false
    [⟨"b", 17/20, "pb"⟩, ⟨"a", 1/2, "pa"⟩] rfl

lemma abort_prepend (env : Env) (e : CallEvent) (he : searchFails env e = false)
    (tr : List CallEvent) (res : Except RecallError (List ScoredRecord))
    (h : AbortDiscipline env tr res) : AbortDiscipline env (e :: tr) res := by
  rcases h with ⟨hall, hres⟩ | ⟨pre, v, th, l, f, rfl, hfail, hres, hpre⟩
  · left
    refine ⟨?_, hres⟩
    intro x hx
    rcases List.mem_cons.mp hx with rfl | hx
    · exact he
    · exact hall x hx
  · right
    refine ⟨e :: pre, v, th, l, f, by simp, hfail, hres, ?_⟩
    intro x hx
    rcases List.mem_cons.mp hx with rfl | hx
    · exact he
    · exact hpre x hx

lemma abort_append (env : Env) (pre : List CallEvent)
    (hpre : ∀ e ∈ pre, searchFails env e = false)
    (tr : List CallEvent) (res : Except RecallError (List ScoredRecord))
    (h : AbortDiscipline env tr res) : AbortDiscipline env (pre ++ tr) res := by
  rcases h with ⟨hall, hres⟩ | ⟨pre2, v, th, l, f, rfl, hfail, hres, hpre2⟩
  · left
    refine ⟨?_, hres⟩
    intro x hx
    rcases List.mem_append.mp hx with hx | hx
    · exact hpre x hx
    · exact hall x hx
  · right
    refine ⟨pre ++ pre2, v, th, l, f, by rw [List.append_assoc], hfail, hres, ?_⟩
    intro x hx
    rcases List.mem_append.mp hx with hx | hx
    · exact hpre x hx
    · exact hpre2 x hx

lemma abort_all_ok (env : Env) (tr : List CallEvent)
    (res : Except RecallError (List ScoredRecord))
    (h : AbortDiscipline env tr res) (hres : res ≠ .error .backendError) :
    ∀ e ∈ tr, searchFails env e = false := by
  rcases h with ⟨hall, -⟩ | ⟨pre, v, th, l, f, -, -, hres2, -⟩
  · exact hall
  · exact absurd hres2 hres

lemma abort_relaxLoop (env : Env) (vec : Vec) (lim : Nat) (filt : Option FilterPred)
    (minR : ℕ) :
    ∀ (ths : List ℚ) (acc : List ScoredRecord),
      AbortDiscipline env (relaxLoop env vec lim filt minR ths acc).1
        (relaxLoop env vec lim filt minR ths acc).2
  | [], acc => by
    rw [relaxLoop]
    left
    exact ⟨by simp, by simp⟩
  | th :: rest, acc => by
    rw [relaxLoop]
    by_cases hlen : effMin minR ≤ acc.length
    · rw [if_pos hlen]
      left
      exact ⟨by simp, by simp⟩
    · rw [if_neg hlen]
      cases hs : env.search vec th lim filt with
      | none =>
        simp only [hs]
        right
        exact ⟨[], vec, th, lim, filt, by simp, hs, rfl, by simp⟩
      | some rs =>
        simp only [hs]
        exact abort_prepend env _ (by simp [searchFails, hs]) _ _
          (abort_relaxLoop env vec lim filt minR rest (accInsertAll acc rs))

lemma abort_sweep (env : Env) (vec : Vec) (t : ℚ) (lim : Nat)
    (filt : Option FilterPred) (minR : ℕ) (adaptive : Bool) (acc : List ScoredRecord) :
    AbortDiscipline env (sweep env vec t lim filt minR adaptive acc).1
      (sweep env vec t lim filt minR adaptive acc).2 := by
  rw [sweep]
  cases hs : env.search vec t lim filt with
  | none =>
    simp only [hs]
    right
    exact ⟨[], vec, t, lim, filt, by simp, hs, rfl, by simp⟩
  | some rs =>
    simp only [hs]
    by_cases hcond : adaptive = true ∧ (accInsertAll acc rs).length < effMin minR
    · rw [if_pos hcond]
      exact abort_prepend env _ (by simp [searchFails, hs]) _ _
        (abort_relaxLoop env vec lim filt minR (relaxedThresholds t) (accInsertAll acc rs))
    · rw [if_neg hcond]
      left
      refine ⟨?_, by simp⟩
      intro x hx
      rw [List.mem_singleton] at hx
      subst hx
      simp [searchFails, hs]

lemma abort_expandLoop (env : Env) (t : ℚ) (lim : Nat) (filt : Option FilterPred)
    (minR : ℕ) (adaptive : Bool) :
    ∀ (vs : List String) (acc : List ScoredRecord),
      AbortDiscipline env (expandLoop env t lim filt minR adaptive vs acc).1
        (expandLoop env t lim filt minR adaptive vs acc).2
  | [], acc => by
    rw [expandLoop]
    left
    exact ⟨by simp, by simp⟩
  | v :: rest, acc => by
    rw [expandLoop]
    by_cases hlen : effMin minR ≤ acc.length
    · rw [if_pos hlen]
      left
      exact ⟨by simp, by simp⟩
    · rw [if_neg hlen]
      cases hemb : env.embed v with
      | none =>
        simp only [hemb]
        left
        constructor
        · intro x hx
          rw [List.mem_singleton] at hx
          subst hx
          rfl
        · simp
      | some w =>
        simp only [hemb]
        cases hsw : (sweep env w t lim filt minR adaptive acc).2 with
        | error e =>
          simp only [hsw]
          have h1 : AbortDiscipline env (sweep env w t lim filt minR adaptive acc).1
              (.error e) := by
            have h := abort_sweep env w t lim filt minR adaptive acc
            rwa [hsw] at h
          exact abort_prepend env (CallEvent.embedCall v) rfl _ _ h1
        | ok acc2 =>
          simp only [hsw]
          have h1 : AbortDiscipline env (sweep env w t lim filt minR adaptive acc).1
              (.ok acc2) := by
            have h := abort_sweep env w t lim filt minR adaptive acc
            rwa [hsw] at h
          have hall := abort_all_ok env _ _ h1 (by simp)
          refine abort_append env
            (CallEvent.embedCall v :: (sweep env w t lim filt minR adaptive acc).1) ?_ _ _
            (abort_expandLoop env t lim filt minR adaptive rest acc2)
          intro x hx
          rcases List.mem_cons.mp hx with rfl | hx
          · rfl
          · exact hall x hx

lemma abort_recall (env : Env) (q : String) (filt : Option FilterPred) (lim : Nat)
    (t : ℚ) (minR : ℕ) (adaptive expansion : Bool) :
    AbortDiscipline env («recall» env q filt lim t minR adaptive expansion).1
      («recall» env q filt lim t minR adaptive expansion).2 := by
  rw [«recall»]
  cases hemb : env.embed q with
  | none =>
    simp only [hemb]
    left
    constructor
    · intro x hx
      rw [List.mem_singleton] at hx
      subst hx
      rfl
    · simp
  | some vec =>
    simp only [hemb]
    cases hsw : (sweep env vec t lim filt minR adaptive []).2 with
    | error e =>
      simp only [hsw]
      have h1 : AbortDiscipline env (sweep env vec t lim filt minR adaptive []).1
          (.error e) := by
        have h := abort_sweep env vec t lim filt minR adaptive []
        rwa [hsw] at h
      exact abort_prepend env (CallEvent.embedCall q) rfl _ _ h1
    | ok acc1 =>
      simp only [hsw]
      have h1 : AbortDiscipline env (sweep env vec t lim filt minR adaptive []).1
          (.ok acc1) := by
        have h := abort_sweep env vec t lim filt minR adaptive []
        rwa [hsw] at h
      have hall := abort_all_ok env _ _ h1 (by simp)
      by_cases hcond : expansion = true ∧ acc1.length < effMin minR
      · rw [if_pos hcond]
        cases hcomp : env.complete (expansionPrompt q) with
        | none =>
          simp only [hcomp]
          left
          constructor
          · intro x hx
            rcases List.mem_append.mp hx with hx | hx
            · rcases List.mem_cons.mp hx with rfl | hx
              · rfl
              · exact hall x hx
            · rw [List.mem_singleton] at hx
              subst hx
              rfl
          · simp
        | some s =>
          simp only [hcomp]
          cases hex : (expandLoop env t lim filt minR adaptive
              (parseVariations s) acc1).2 with
          | error e =>
            simp only [hex]
            have h2 : AbortDiscipline env
                (expandLoop env t lim filt minR adaptive (parseVariations s) acc1).1
                (.error e) := by
              have h := abort_expandLoop env t lim filt minR adaptive (parseVariations s) acc1
              rwa [hex] at h
            refine abort_append env _ ?_ _ _
              (abort_prepend env (CallEvent.completeCall (expansionPrompt q)) rfl _ _ h2)
            intro x hx
            rcases List.mem_cons.mp hx with rfl | hx
            · rfl
            · exact hall x hx
          | ok acc2 =>
            simp only [hex]
            have h2 : AbortDiscipline env
                (expandLoop env t lim filt minR adaptive (parseVariations s) acc1).1
                (.ok acc2) := by
              have h := abort_expandLoop env t lim filt minR adaptive (parseVariations s) acc1
              rwa [hex] at h
            have hall2 := abort_all_ok env _ _ h2 (by simp)
            left
            constructor
            · intro x hx
              rcases List.mem_append.mp hx with hx | hx
              · rcases List.mem_cons.mp hx with rfl | hx
                · rfl
                · exact hall x hx
              · rcases List.mem_cons.mp hx with rfl | hx
                · rfl
                · exact hall2 x hx
            · simp
      · rw [if_neg hcond]
        left
        constructor
        · intro x hx
          rcases List.mem_cons.mp hx with rfl | hx
          · rfl
          · exact hall x hx
        · simp

/-- C8: if any single search-backend attempt of a recall call fails, the call
aborts immediately with the backend error: the failing attempt is the last
recorded call (nothing is retried and no further attempts are issued, across
all stages), every earlier call succeeded, and no result list is returned. -/
theorem recall_backend_failure_aborts (env : Env) (q : String)
    (filt : Option FilterPred) (lim : Nat) (t : ℚ) (minR : ℕ)
    (adaptive expansion : Bool) (ev : CallEvent)
    (hmem : ev ∈ («recall» env q filt lim t minR adaptive expansion).1)
    (hfail : searchFails env ev = true) :
    («recall» env q filt lim t minR adaptive expansion).2 = .error .backendError
    ∧ ∃ pre, («recall» env q filt lim t minR adaptive expansion).1 = pre ++ [ev]
        ∧ ∀ e ∈ pre, searchFails env e = false := by
  have h := abort_recall env q filt lim t minR adaptive expansion
  rcases h with ⟨hall, -⟩ | ⟨pre, v, th, l, f, htr, hne, hres, hpre⟩
  · rw [hall ev hmem] at hfail
    cases hfail
  · refine ⟨hres, pre, ?_, hpre⟩
    rw [htr] at hmem
    rcases List.mem_append.mp hmem with hin | hin
    · rw [hpre ev hin] at hfail
      cases hfail
    · rw [List.mem_singleton] at hin
      subst hin
      exact htr

theorem recall_backend_failure_aborts_inst :
    («recall» envSearchFail "q" none 5 (7/10) 3 true true).2 = .error .backendError
    ∧ ∃ pre, («recall» envSearchFail "q" none 5 (7/10) 3 true true).1 =
          pre ++ [CallEvent.searchCall [1] (7/10) 5 none]
        ∧ ∀ e ∈ pre, searchFails envSearchFail e = false :=
  recall_backend_failure_aborts envSearchFail "q" none 5 (7/10) 3 true true
    (CallEvent.searchCall [1] (7/10) 5 none) (by decide) (by decide)

/-- C7: when the embedding provider fails on the initial call, recall raises
the embedding error immediately: no partial results are returned and no search
or completion calls are made. -/
theorem recall_embed_failure_aborts
    (env : Env) (q : String) (filt : Option FilterPred) (lim : Nat) (t : ℚ)
    (minR : ℕ) (adaptive expansion : Bool)
    (h : env.embed q = none) :
    «recall» env q filt lim t minR adaptive expansion =
      ([CallEvent.embedCall q], .error .embeddingError) := by
  simp [«recall», h]

theorem recall_embed_failure_aborts_inst :
    «recall» envEmbedFail "query" none 5 (7/10) 3 true true =
      ([CallEvent.embedCall "query"], .error .embeddingError) :=
  recall_embed_failure_aborts envEmbedFail "query" none 5 (7/10) 3 true true rfl

end MeshOS

namespace PropsOS

/-- C10: `PropsOS.recall` performs no validation of the query text: for every
string query — the empty string included — it first calls the embedding
provider, then (when the embedding succeeds) the search backend, and any
failure of the call is attributable to one of those two collaborators; it
never raises a validation error of its own. -/
theorem propsRecall_no_validation
    (env : PropsEnv) (q : String) (agentId : Option String) (lim : Nat) (t : ℚ)
    (filters : Option (List (String × FilterValue))) :
    ((propsRecall env q agentId lim t filters).1.head? = some (.embedCall q))
    ∧ (∀ vec, env.embed q = some vec →
        (propsRecall env q agentId lim t filters).1 =
          [.embedCall q, .searchCall vec t lim (buildWhereClause agentId filters)])
    ∧ (∀ pe, (propsRecall env q agentId lim t filters).2 = .error pe →
        (pe = .embeddingError ∧ env.embed q = none) ∨
        (pe = .backendError ∧ ∃ vec, env.embed q = some vec ∧
          env.search (buildWhereClause agentId filters) vec lim t = none)) := by
  refine ⟨?_, ?_, ?_⟩
  · cases hemb : env.embed q with
    | none => simp [propsRecall, hemb]
    | some vec =>
      cases hs : env.search (buildWhereClause agentId filters) vec lim t with
      | none => simp [propsRecall, hemb, hs]
      | some ms => simp [propsRecall, hemb, hs]
  · intro vec hemb
    cases hs : env.search (buildWhereClause agentId filters) vec lim t with
    | none => simp [propsRecall, hemb, hs]
    | some ms => simp [propsRecall, hemb, hs]
  · intro pe hpe
    cases hemb : env.embed q with
    | none =>
      left
      simp only [propsRecall, hemb] at hpe
      exact ⟨by cases hpe; rfl, rfl⟩
    | some vec =>
      cases hs : env.search (buildWhereClause agentId filters) vec lim t with
      | none =>
        right
        simp only [propsRecall, hemb, hs] at hpe
        exact ⟨by cases hpe; rfl, vec, rfl, hs⟩
      | some ms =>
        simp [propsRecall, hemb, hs] at hpe

theorem propsRecall_no_validation_inst :
    ((propsRecall propsEnv0 "" none 5 (7/10) none).1.head? = some (.embedCall ""))
    ∧ (∀ vec, propsEnv0.embed "" = some vec →
        (propsRecall propsEnv0 "" none 5 (7/10) none).1 =
          [.embedCall "", .searchCall vec (7/10) 5 (buildWhereClause none none)])
    ∧ (∀ pe, (propsRecall propsEnv0 "" none 5 (7/10) none).2 = .error pe →
        (pe = .embeddingError ∧ propsEnv0.embed "" = none) ∨
        (pe = .backendError ∧ ∃ vec, propsEnv0.embed "" = some vec ∧
          propsEnv0.search (buildWhereClause none none) vec 5 (7/10) = none)) :=
  propsRecall_no_validation propsEnv0 "" none 5 (7/10) none

end PropsOS
